import Mathlib

/-!
Verification of the @ffz/api-router core: a shallow embedding of the
middleware composition engine (src/lib/composer.js), the route/dataware
assembly in Router.prototype._update (src/lib/router.js), the dispatch
frontend, and the Mount middleware, together with theorems checking the
natural-language specification against this embedding.
-/

namespace ApiRouter

/-- A handler token: an identity together with the optional `sort` property
that dataware functions may carry (`none` models an absent/undefined
property). Ordinary middleware functions simply leave it `none`. -/
structure Handler where
  id : Nat
  sort : Option Int := none
  deriving DecidableEq, Repr

/-- Character-list prefix test (kernel-computable). -/
def charsPrefix : List Char → List Char → Bool
  | [], _ => true
  | _ :: _, [] => false
  | a :: as, b :: bs => a == b && charsPrefix as bs

/-- JS `s.startsWith(p)`. -/
def strStartsWith (s p : String) : Bool := charsPrefix p.data s.data

/-- JS `s.endsWith(p)`. -/
def strEndsWith (s p : String) : Bool :=
  charsPrefix p.data.reverse s.data.reverse

/-- JS `s.toLowerCase()` (over the ASCII range the router cares about). -/
def strLower (s : String) : String := ⟨s.data.map Char.toLower⟩

/-- JS `s.toUpperCase()` (over the ASCII range the router cares about). -/
def strUpper (s : String) : String := ⟨s.data.map Char.toUpper⟩

/-- The `test` value of a filterable middleware: either a plain string used
with `path.startsWith(test)`, or an object with a `test` method (in the
source, a compiled regular expression), modelled as a predicate. -/
inductive TestVal where
  | str (s : String)
  | pred (f : String → Bool)

/-- A `FilterableMiddleware` record, as stored in the `middlewares` list that
`compose` builds in src/lib/composer.js. -/
structure MW where
  filtered : Bool
  rich : Bool := false
  test : Option TestVal := none
  fn : Handler

/-- Default middleware record, used only to give `List.getD` a default. -/
def mwDefault : MW := { filtered := false, fn := ⟨0, none⟩ }

instance : Inhabited MW := ⟨mwDefault⟩

/-- The per-request filter check inside `Composer.run`: an unfiltered entry
always runs; a rich filter uses `test.test(path)`; a plain filter uses
`path.startsWith(test)`. -/
def MW.matches (m : MW) (path : String) : Bool :=
  !m.filtered ||
    (if m.rich then
      match m.test with
      | some (.pred f) => f path
      | _ => false
    else
      match m.test with
      | some (.str s) => strStartsWith path s
      | _ => false)

/-- A single element of a section passed to `compose`: a falsy value (which
is skipped), a plain function, a filterable-middleware object (anything with
a `fn` property), or an invalid value (which raises a `TypeError`). -/
inductive CompItem where
  | falsy
  | fn (h : Handler)
  | filt (m : MW)
  | bad

/-- One argument ("section") given to `compose`: falsy (skipped), a single
item, or an array of items. -/
inductive CompSection where
  | falsy
  | single (it : CompItem)
  | arr (its : List CompItem)

/-- Wrapping of a plain function by `compose`: `{filtered: false, fn}`. -/
def wrapFn (h : Handler) : MW := { filtered := false, fn := h }

/-- The inner loop of `compose`, flattening the items of one section onto the
accumulated `middlewares` list; an invalid item aborts with the error that
the source throws. -/
def composeItems : List MW → List CompItem → Except String (List MW)
  | acc, [] => .ok acc
  | acc, .falsy :: rest => composeItems acc rest
  | acc, .fn h :: rest => composeItems (acc ++ [wrapFn h]) rest
  | acc, .filt m :: rest => composeItems (acc ++ [m]) rest
  | _, .bad :: _ => .error "invalid input to compose"

/-- The outer loop of `compose` over its arguments. A non-array section is
handled as a one-element array, exactly as the source does. -/
def composeList : List MW → List CompSection → Except String (List MW)
  | acc, [] => .ok acc
  | acc, .falsy :: rest => composeList acc rest
  | acc, .single it :: rest =>
    match composeItems acc [it] with
    | .ok acc2 => composeList acc2 rest
    | .error e => .error e
  | acc, .arr its :: rest =>
    match composeItems acc its with
    | .ok acc2 => composeList acc2 rest
    | .error e => .error e

/-- The build-time part of `compose(...input)`: the flattened middleware
list of the returned composed handler (its `_middleware`). -/
def compose (input : List CompSection) : Except String (List MW) :=
  composeList [] input

/-- Number of entries skipped by the scan loop in `Composer.run` before the
first entry matching the path, or the list length if none matches. -/
def scanIdx (path : String) : List MW → Nat
  | [] => 0
  | m :: rest => if m.matches path then 0 else scanIdx path rest + 1

/-- What one call of the bound `run` does: reject (double `next`), call the
middleware at an index (passing the bound next for `nextIdx`), call the
externally supplied top-level next, or resolve with no further work. -/
inductive StepOut where
  | reject (msg : String)
  | handler (idx : Nat) (nextIdx : Nat)
  | topNext
  | resolveEmpty
  deriving Repr

/-- Result of one call of `run`: the action taken and the instance cursor
(`this.i`) after the call. -/
structure StepRes where
  out : StepOut
  cursor : Int

/-- One call of `Composer.run(i)` from src/lib/composer.js: if `i` does not
advance past the cursor, reject with the double-`next` error and leave the
cursor untouched; otherwise scan forward past non-matching filtered entries,
set the cursor to the found index, and either run that entry (with the bound
next for the following index), invoke the top-level next at the end of the
chain, or resolve if no top-level next was supplied. -/
def runStep (mws : List MW) (hasTop : Bool) (path : String)
    (cursor : Int) (i : Nat) : StepRes :=
  if (i : Int) ≤ cursor then
    ⟨.reject "next() called multiple times", cursor⟩
  else if i + scanIdx path (mws.drop i) = mws.length then
    ⟨if hasTop then .topNext else .resolveEmpty,
      ((i + scanIdx path (mws.drop i) : Nat) : Int)⟩
  else
    ⟨.handler (i + scanIdx path (mws.drop i))
      (i + scanIdx path (mws.drop i) + 1),
      ((i + scanIdx path (mws.drop i) : Nat) : Int)⟩

/-- Behaviour of a user handler during one invocation: it calls its `next`
exactly once and returns, it returns without calling `next`, or it throws. -/
inductive HBeh where
  | callNext
  | halt
  | raise

/-- Outcome of a whole invocation of the composed handler. -/
inductive POut where
  | completed
  | errored
  | rejectedMulti
  deriving DecidableEq, Repr

/-- A full pass through the chain: repeatedly take `runStep`s, each executed
handler calling the bound next for the following index (cursor threading as
in the source). Returns the indices of the handlers that ran and the
invocation outcome. Fuel only bounds recursion; `mws.length + 1` is enough. -/
def passRun (mws : List MW) (hasTop : Bool) (path : String) (beh : Nat → HBeh) :
    Nat → Int → Nat → List Nat × POut
  | 0, _, _ => ([], .completed)
  | fuel + 1, cursor, i =>
    match (runStep mws hasTop path cursor i).out with
    | .reject _ => ([], .rejectedMulti)
    | .topNext => ([], .completed)
    | .resolveEmpty => ([], .completed)
    | .handler j _ =>
      match beh j with
      | .halt => ([j], .completed)
      | .raise => ([j], .errored)
      | .callNext =>
        let rest := passRun mws hasTop path beh fuel (j : Int) (j + 1)
        (j :: rest.1, rest.2)

/-- One invocation of the composed handler: `run(0)` with a fresh cursor of
`-1`, as set up by `composed` in src/lib/composer.js. -/
def invoke (mws : List MW) (hasTop : Bool) (path : String) (beh : Nat → HBeh) :
    List Nat × POut :=
  passRun mws hasTop path beh (mws.length + 1) (-1) 0

/-- Positions (0-based) of the entries of a middleware list that match a
path. This is the specification-side description of which entries a full
pass should run. -/
def matchPos (path : String) : List MW → List Nat
  | [] => []
  | m :: rest =>
    if m.matches path then 0 :: (matchPos path rest).map (· + 1)
    else (matchPos path rest).map (· + 1)

theorem scanIdx_le_length (path : String) :
    ∀ l : List MW, scanIdx path l ≤ l.length := by
  intro l
  induction l with
  | nil => simp [scanIdx]
  | cons m rest ih =>
    simp only [scanIdx, List.length_cons]
    split <;> omega

/-- Entries strictly before the scan result do not match the path. -/
theorem scanIdx_skipped (path : String) :
    ∀ (l : List MW) (k : Nat), k < scanIdx path l →
      (l.getD k mwDefault).matches path = false := by
  intro l
  induction l with
  | nil => intro k hk; simp [scanIdx] at hk
  | cons m rest ih =>
    intro k hk
    rcases hm : m.matches path with _ | _
    · cases k with
      | zero => simpa using hm
      | succ k =>
        simp only [scanIdx, hm, Bool.false_eq_true, if_neg, if_false] at hk
        simpa using ih k (by omega)
    · simp [scanIdx, hm] at hk

/-- When the scan finds an entry, that entry matches the path. -/
theorem scanIdx_found (path : String) :
    ∀ l : List MW, scanIdx path l < l.length →
      (l.getD (scanIdx path l) mwDefault).matches path = true := by
  intro l
  induction l with
  | nil => intro h; simp [scanIdx] at h
  | cons m rest ih =>
    intro h
    rcases hm : m.matches path with _ | _
    · simp only [scanIdx, hm, Bool.false_eq_true, if_false,
        List.length_cons] at h ⊢
      simpa using ih (by omega)
    · simp [scanIdx, hm]

/-- Relation between `scanIdx` and `matchPos`: either nothing matches, or
the match positions are the scan result followed by the shifted positions
within the remainder of the list. -/
theorem matchPos_scan (path : String) :
    ∀ l : List MW,
      (scanIdx path l = l.length ∧ matchPos path l = []) ∨
      (scanIdx path l < l.length ∧
        matchPos path l = scanIdx path l ::
          (matchPos path (l.drop (scanIdx path l + 1))).map
            (· + (scanIdx path l + 1))) := by
  intro l
  induction l with
  | nil => left; simp [scanIdx, matchPos]
  | cons m rest ih =>
    rcases hm : m.matches path with _ | _
    · rcases ih with ⟨hlen, hmp⟩ | ⟨hlt, hmp⟩
      · left
        constructor
        · simp [scanIdx, hm, hlen]
        · simp [matchPos, hm, hmp]
      · right
        constructor
        · simp only [scanIdx, hm, Bool.false_eq_true, if_false,
            List.length_cons]
          omega
        · simp only [matchPos, scanIdx, hm, Bool.false_eq_true, if_false,
            hmp, List.map_cons, List.map_map, List.drop_succ_cons]
          refine congrArg₂ _ rfl ?_
          apply List.map_congr_left
          intro x _
          simp only [Function.comp_apply]
          omega
    · right
      refine ⟨by simp [scanIdx, hm], ?_⟩
      simp [scanIdx, matchPos, hm]

theorem runStep_out_reject {mws : List MW} {hasTop : Bool} {path : String}
    {cursor : Int} {i : Nat} {msg : String}
    (h : (runStep mws hasTop path cursor i).out = .reject msg) :
    (i : Int) ≤ cursor := by
  by_cases hle : (i : Int) ≤ cursor
  · exact hle
  · exfalso
    unfold runStep at h
    rw [if_neg hle] at h
    by_cases hend : i + scanIdx path (mws.drop i) = mws.length
    · rw [if_pos hend] at h
      cases hasTop <;> simp at h
    · rw [if_neg hend] at h
      simp at h

theorem runStep_out_handler {mws : List MW} {hasTop : Bool} {path : String}
    {cursor : Int} {i j nx : Nat}
    (h : (runStep mws hasTop path cursor i).out = .handler j nx) :
    cursor < (i : Int) ∧ j = i + scanIdx path (mws.drop i) ∧
      j ≠ mws.length ∧ nx = j + 1 := by
  by_cases hle : (i : Int) ≤ cursor
  · unfold runStep at h
    rw [if_pos hle] at h
    simp at h
  · unfold runStep at h
    rw [if_neg hle] at h
    by_cases hend : i + scanIdx path (mws.drop i) = mws.length
    · rw [if_pos hend] at h
      cases hasTop <;> simp at h
    · rw [if_neg hend] at h
      simp only [StepOut.handler.injEq] at h
      rcases h with ⟨h1, h2⟩
      refine ⟨by omega, h1.symm, ?_, by omega⟩
      rw [← h1]
      exact hend

theorem runStep_end {mws : List MW} {hasTop : Bool} {path : String}
    {cursor : Int} {i : Nat} (hlt : cursor < (i : Int))
    (hend : i + scanIdx path (mws.drop i) = mws.length) :
    (runStep mws hasTop path cursor i).out =
      (if hasTop then .topNext else .resolveEmpty) := by
  unfold runStep
  rw [if_neg (by omega), if_pos hend]

theorem runStep_mid {mws : List MW} {hasTop : Bool} {path : String}
    {cursor : Int} {i : Nat} (hlt : cursor < (i : Int))
    (hend : i + scanIdx path (mws.drop i) ≠ mws.length) :
    runStep mws hasTop path cursor i =
      ⟨.handler (i + scanIdx path (mws.drop i))
        (i + scanIdx path (mws.drop i) + 1),
        ((i + scanIdx path (mws.drop i) : Nat) : Int)⟩ := by
  unfold runStep
  rw [if_neg (by omega), if_neg hend]

/-- A full pass in which every handler calls its `next` exactly once runs
exactly the matching entries, in order, and completes. -/
theorem passRun_callNext (mws : List MW) (hasTop : Bool) (path : String) :
    ∀ (fuel i : Nat), i ≤ mws.length → mws.length + 1 ≤ fuel + i →
      passRun mws hasTop path (fun _ => .callNext) fuel ((i : Int) - 1) i =
        ((matchPos path (mws.drop i)).map (i + ·), .completed) := by
  intro fuel
  induction fuel with
  | zero => intro i h1 h2; omega
  | succ fuel ih =>
    intro i hi hfuel
    have hscan := scanIdx_le_length path (mws.drop i)
    rw [List.length_drop] at hscan
    rcases matchPos_scan path (mws.drop i) with ⟨hlen, hmp⟩ | ⟨hlt, hmp⟩
    · rw [List.length_drop] at hlen
      have hend : i + scanIdx path (mws.drop i) = mws.length := by omega
      unfold passRun
      rw [runStep_end (by omega) hend, hmp]
      cases hasTop <;> simp
    · rw [List.length_drop] at hlt
      have hne : i + scanIdx path (mws.drop i) ≠ mws.length := by omega
      unfold passRun
      rw [runStep_mid (by omega) hne]
      dsimp only
      have hrec := ih (i + scanIdx path (mws.drop i) + 1) (by omega) (by omega)
      have hdrop : (mws.drop i).drop (scanIdx path (mws.drop i) + 1) =
          mws.drop (i + scanIdx path (mws.drop i) + 1) := by
        rw [List.drop_drop]
        have heq : i + (scanIdx path (mws.drop i) + 1) =
            i + scanIdx path (mws.drop i) + 1 := by omega
        rw [heq]
      have hcast : (((i + scanIdx path (mws.drop i) : Nat)) : Int) =
          (((i + scanIdx path (mws.drop i) + 1 : Nat)) : Int) - 1 := by
        push_cast
        ring
      rw [hcast, hrec, hmp, hdrop]
      simp only [List.map_cons, List.map_map, Prod.mk.injEq, List.cons.injEq,
        true_and, and_true]
      apply List.map_congr_left
      intro x _
      simp only [Function.comp_apply]
      omega

/-- Started fresh (cursor below the first index), a pass never hits the
double-`next` rejection, whatever each handler does. -/
theorem passRun_no_reject (mws : List MW) (hasTop : Bool) (path : String)
    (beh : Nat → HBeh) :
    ∀ (fuel : Nat) (cursor : Int) (i : Nat), cursor < (i : Int) →
      (passRun mws hasTop path beh fuel cursor i).2 ≠ .rejectedMulti := by
  intro fuel
  induction fuel with
  | zero => intro cursor i _; simp [passRun]
  | succ fuel ih =>
    intro cursor i hci
    unfold passRun
    split
    · next msg heq => exact absurd (runStep_out_reject heq) (by omega)
    · simp
    · simp
    · next j nx heq =>
      split
      · simp
      · simp
      · have := ih (j : Int) (j + 1) (by omega)
        simpa using this

/-- A pass ends in an error exactly when the last executed handler threw. -/
theorem passRun_errored_iff (mws : List MW) (hasTop : Bool) (path : String)
    (beh : Nat → HBeh) :
    ∀ (fuel : Nat) (cursor : Int) (i : Nat),
      ((passRun mws hasTop path beh fuel cursor i).2 = .errored ↔
        ∃ last, (passRun mws hasTop path beh fuel cursor i).1.getLast? = some last ∧
          beh last = .raise) := by
  intro fuel
  induction fuel with
  | zero => intro cursor i; simp [passRun]
  | succ fuel ih =>
    intro cursor i
    unfold passRun
    split
    · simp
    · simp
    · simp
    · next j nx heq =>
      split
      · next hb => simp [hb]
      · next hb => simp [hb]
      · next hb =>
        have ihj := ih (j : Int) (j + 1)
        rcases htr : (passRun mws hasTop path beh fuel (j : Int) (j + 1)).1 with _ | ⟨x, xs⟩
        · rw [htr] at ihj
          simp only [htr, List.getLast?_singleton]
          simp only [List.getLast?_nil] at ihj
          constructor
          · intro hout
            exact absurd (ihj.mp hout) (by simp)
          · rintro ⟨last, hlast, hraise⟩
            rw [Option.some.injEq] at hlast
            rw [← hlast] at hraise
            rw [hb] at hraise
            cases hraise
        · rw [htr] at ihj
          simp only [htr]
          rw [List.getLast?_cons_cons]
          exact ihj

/-- Reading the entries back off the match positions gives exactly the
matching entries, in order. -/
theorem matchPos_getD (path : String) :
    ∀ l : List MW,
      (matchPos path l).map (fun j => l.getD j mwDefault) =
        l.filter (fun m => m.matches path) := by
  intro l
  induction l with
  | nil => simp [matchPos]
  | cons m rest ih =>
    rcases hm : m.matches path with _ | _
    · simp only [matchPos, hm, Bool.false_eq_true, if_false, List.map_map,
        List.filter_cons, cond_false]
      rw [← ih]
      apply List.map_congr_left
      intro j _
      simp [List.getD_cons_succ]
    · simp only [matchPos, hm, if_true, List.map_cons, List.map_map,
        List.filter_cons, cond_true, List.getD_cons_zero]
      rw [← ih]
      refine congrArg₂ _ rfl ?_
      apply List.map_congr_left
      intro j _
      simp [List.getD_cons_succ]

theorem getD_drop (l : List MW) (n k : Nat) :
    (l.drop n).getD k mwDefault = l.getD (n + k) mwDefault := by
  simp [List.getD_eq_getElem?_getD, List.getElem?_drop]

/-- C2: invoking the bound next for index `i` when the cursor is already at
or past `i` rejects with the `next() called multiple times` error and leaves
the cursor (the effects of the first call) untouched, while a single forward
pass — every handler calling its next at most once — never triggers this
rejection. -/
theorem composer_double_next_rejected (mws : List MW) (hasTop : Bool)
    (path : String) (cursor : Int) (i : Nat) (beh : Nat → HBeh)
    (hdouble : (i : Int) ≤ cursor) :
    runStep mws hasTop path cursor i =
      ⟨.reject "next() called multiple times", cursor⟩ ∧
    (invoke mws hasTop path beh).2 ≠ .rejectedMulti := by
  constructor
  · unfold runStep
    rw [if_pos hdouble]
  · exact passRun_no_reject mws hasTop path beh _ _ 0 (by omega)

theorem composer_double_next_rejected_witness :
    runStep [] true "/" 3 2 =
      ⟨.reject "next() called multiple times", 3⟩ ∧
    (invoke [] true "/" (fun _ => .callNext)).2 ≠ .rejectedMulti :=
  composer_double_next_rejected [] true "/" 3 2 (fun _ => .callNext)
    (by decide)

/-- C3: at each step the engine skips every filtered entry whose test does
not match the current path, runs the first matching entry with the bound
next for the following index, past the last entry invokes the top-level
next (or resolves when none was given), and a throw from a handler makes
the whole invocation fail. -/
theorem composer_step_filtering (mws : List MW) (hasTop : Bool)
    (path : String) (cursor : Int) (i : Nat) (beh : Nat → HBeh)
    (hcur : cursor < (i : Int)) (hi : i ≤ mws.length) :
    (∀ k, i ≤ k → k < i + scanIdx path (mws.drop i) →
      (mws.getD k mwDefault).matches path = false) ∧
    (i + scanIdx path (mws.drop i) < mws.length →
      (mws.getD (i + scanIdx path (mws.drop i)) mwDefault).matches path = true ∧
      runStep mws hasTop path cursor i =
        ⟨.handler (i + scanIdx path (mws.drop i))
          (i + scanIdx path (mws.drop i) + 1),
          ((i + scanIdx path (mws.drop i) : Nat) : Int)⟩) ∧
    (i + scanIdx path (mws.drop i) = mws.length →
      (runStep mws hasTop path cursor i).out =
        (if hasTop then .topNext else .resolveEmpty)) ∧
    ((invoke mws hasTop path beh).2 = .errored ↔
      ∃ last, (invoke mws hasTop path beh).1.getLast? = some last ∧
        beh last = .raise) := by
  refine ⟨?_, ?_, ?_, ?_⟩
  · intro k hik hk
    have hless : k - i < scanIdx path (mws.drop i) := by omega
    have := scanIdx_skipped path (mws.drop i) (k - i) hless
    rw [getD_drop] at this
    have heq : i + (k - i) = k := by omega
    rwa [heq] at this
  · intro hlt
    constructor
    · have hlen : scanIdx path (mws.drop i) < (mws.drop i).length := by
        rw [List.length_drop]
        omega
      have := scanIdx_found path (mws.drop i) hlen
      rwa [getD_drop] at this
    · exact runStep_mid hcur (by omega)
  · intro hend
    exact runStep_end hcur hend
  · exact passRun_errored_iff mws hasTop path beh _ _ _

theorem composer_step_filtering_witness :
    (∀ k, 0 ≤ k →
      k < 0 + scanIdx "/x"
        ([⟨true, false, some (.str "/api"), ⟨1, none⟩⟩,
          ⟨false, false, none, ⟨2, none⟩⟩].drop 0) →
      (([⟨true, false, some (.str "/api"), ⟨1, none⟩⟩,
          ⟨false, false, none, ⟨2, none⟩⟩] : List MW).getD k
        mwDefault).matches "/x" = false) ∧
    (0 + scanIdx "/x"
        ([⟨true, false, some (.str "/api"), ⟨1, none⟩⟩,
          ⟨false, false, none, ⟨2, none⟩⟩].drop 0) <
      ([⟨true, false, some (.str "/api"), ⟨1, none⟩⟩,
        ⟨false, false, none, ⟨2, none⟩⟩] : List MW).length →
      (([⟨true, false, some (.str "/api"), ⟨1, none⟩⟩,
          ⟨false, false, none, ⟨2, none⟩⟩] : List MW).getD
        (0 + scanIdx "/x"
          ([⟨true, false, some (.str "/api"), ⟨1, none⟩⟩,
            ⟨false, false, none, ⟨2, none⟩⟩].drop 0))
        mwDefault).matches "/x" = true ∧
      runStep [⟨true, false, some (.str "/api"), ⟨1, none⟩⟩,
          ⟨false, false, none, ⟨2, none⟩⟩] true "/x" (-1) 0 =
        ⟨.handler
          (0 + scanIdx "/x"
            ([⟨true, false, some (.str "/api"), ⟨1, none⟩⟩,
              ⟨false, false, none, ⟨2, none⟩⟩].drop 0))
          (0 + scanIdx "/x"
            ([⟨true, false, some (.str "/api"), ⟨1, none⟩⟩,
              ⟨false, false, none, ⟨2, none⟩⟩].drop 0) + 1),
          ((0 + scanIdx "/x"
            ([⟨true, false, some (.str "/api"), ⟨1, none⟩⟩,
              ⟨false, false, none, ⟨2, none⟩⟩].drop 0) : Nat) : Int)⟩) ∧
    (0 + scanIdx "/x"
        ([⟨true, false, some (.str "/api"), ⟨1, none⟩⟩,
          ⟨false, false, none, ⟨2, none⟩⟩].drop 0) =
      ([⟨true, false, some (.str "/api"), ⟨1, none⟩⟩,
        ⟨false, false, none, ⟨2, none⟩⟩] : List MW).length →
      (runStep [⟨true, false, some (.str "/api"), ⟨1, none⟩⟩,
          ⟨false, false, none, ⟨2, none⟩⟩] true "/x" (-1) 0).out =
        (if true then .topNext else .resolveEmpty)) ∧
    ((invoke [⟨true, false, some (.str "/api"), ⟨1, none⟩⟩,
        ⟨false, false, none, ⟨2, none⟩⟩] true "/x"
        (fun _ => .raise)).2 = .errored ↔
      ∃ last,
        (invoke [⟨true, false, some (.str "/api"), ⟨1, none⟩⟩,
          ⟨false, false, none, ⟨2, none⟩⟩] true "/x"
          (fun _ => .raise)).1.getLast? = some last ∧
        (fun _ : Nat => HBeh.raise) last = .raise) :=
  composer_step_filtering
    [⟨true, false, some (.str "/api"), ⟨1, none⟩⟩,
      ⟨false, false, none, ⟨2, none⟩⟩] true "/x" (-1) 0
    (fun _ => .raise) (by decide) (by decide)

/-! Dataware resolution: the chain-building loop of Router.prototype._update
(src/lib/router.js, live branch). Constructors are referenced through an
interpretation environment so that registrations stay comparable data. -/

/-- What a dataware constructor call `dw(data, route, d)` may return: a
falsy value (nothing), one middleware function, or an array of functions
possibly containing falsy entries. -/
inductive DWOut where
  | nil
  | one (h : Handler)
  | many (hs : List (Option Handler))

/-- JS truthiness of a numeric `sort` property: an absent (undefined)
property and the number 0 are both falsy. -/
def truthySort : Option Int → Bool
  | none => false
  | some v => v != 0

/-- `if ( ! thing.sort ) thing.sort = sort` from _update: the key's
registered weight is written onto the handler whenever the handler's own
`sort` is falsy. -/
def assignSort (h : Handler) (ks : Option Int) : Handler :=
  if truthySort h.sort then h else { h with sort := ks }

/-- The comparator value `a && a.sort || 0` used when sorting the chain. -/
def sortVal (h : Handler) : Int := h.sort.getD 0

/-- The sort order of the dataware comparator `(a, b) => a - b` on the
comparator values: ascending. -/
def dwLE (a b : Handler) : Prop := sortVal a ≤ sortVal b

instance : DecidableRel dwLE := fun a b => by
  unfold dwLE
  infer_instance

instance : IsTotal Handler dwLE := ⟨fun a b => le_total (sortVal a) (sortVal b)⟩

instance : IsTrans Handler dwLE :=
  ⟨fun _ _ _ hab hbc => le_trans hab hbc⟩

/-- The collection loop over `matching_dware` (triples of key, constructor
and registered sort): call the constructor on the data value for the key,
skip falsy results, flatten arrays skipping falsy entries, and stamp the
key's weight onto every yielded handler whose own weight is falsy. -/
def collectDW (interp : Nat → Option Int → DWOut)
    (dataFor : String → Option Int) :
    List (String × Nat × Option Int) → List Handler
  | [] => []
  | (k, c, s) :: rest =>
    match interp c (dataFor k) with
    | .nil => collectDW interp dataFor rest
    | .one h => assignSort h s :: collectDW interp dataFor rest
    | .many hs =>
      hs.filterMap (fun oh => oh.map (fun h => assignSort h s)) ++
        collectDW interp dataFor rest

/-- The final dataware chain of _update: the collected handlers sorted by
the comparator. `Array.prototype.sort` is specified to be stable, which the
canonical stable `insertionSort` realizes. -/
def buildDW (interp : Nat → Option Int → DWOut)
    (dataFor : String → Option Int)
    (matching : List (String × Nat × Option Int)) : List Handler :=
  List.insertionSort dwLE (collectDW interp dataFor matching)

/-- The weighting rule as the C5 claim states it: the handler's own
*explicit* weight (any present `sort` value, including 0) always takes
precedence over the key's registered weight. -/
def claimAssignSort (h : Handler) (ks : Option Int) : Handler :=
  match h.sort with
  | some _ => h
  | none => { h with sort := ks }

/-- The collection loop using the claim's weighting rule. -/
def claimCollectDW (interp : Nat → Option Int → DWOut)
    (dataFor : String → Option Int) :
    List (String × Nat × Option Int) → List Handler
  | [] => []
  | (k, c, s) :: rest =>
    match interp c (dataFor k) with
    | .nil => claimCollectDW interp dataFor rest
    | .one h => claimAssignSort h s :: claimCollectDW interp dataFor rest
    | .many hs =>
      hs.filterMap (fun oh => oh.map (fun h => claimAssignSort h s)) ++
        claimCollectDW interp dataFor rest

/-- The dataware chain the C5 claim describes. -/
def claimBuildDW (interp : Nat → Option Int → DWOut)
    (dataFor : String → Option Int)
    (matching : List (String × Nat × Option Int)) : List Handler :=
  List.insertionSort dwLE (claimCollectDW interp dataFor matching)

/-- The yields of a single matching triple, with the code's weighting. -/
def yieldsOf (interp : Nat → Option Int → DWOut)
    (dataFor : String → Option Int)
    (t : String × Nat × Option Int) : List Handler :=
  match interp t.2.1 (dataFor t.1) with
  | .nil => []
  | .one h => [assignSort h t.2.2]
  | .many hs => hs.filterMap (fun oh => oh.map (fun h => assignSort h t.2.2))

theorem collectDW_eq_flatMap (interp : Nat → Option Int → DWOut)
    (dataFor : String → Option Int) :
    ∀ matching : List (String × Nat × Option Int),
      collectDW interp dataFor matching =
        matching.flatMap (yieldsOf interp dataFor) := by
  intro matching
  induction matching with
  | nil => simp [collectDW]
  | cons t rest ih =>
    rcases t with ⟨k, c, s⟩
    simp only [collectDW, List.flatMap_cons, yieldsOf]
    rcases interp c (dataFor k) with _ | h | hs <;> simp [ih]

/-- Filtering a fixed comparator value commutes with `orderedInsert`. -/
theorem filter_orderedInsert (w : Int) (a : Handler) :
    ∀ l : List Handler,
      (List.orderedInsert dwLE a l).filter (fun h => sortVal h == w) =
        if sortVal a == w then
          a :: l.filter (fun h => sortVal h == w)
        else l.filter (fun h => sortVal h == w) := by
  intro l
  induction l with
  | nil =>
    simp only [List.orderedInsert, List.filter_cons, List.filter_nil]
  | cons y ys ih =>
    by_cases hay : dwLE a y
    · rw [List.orderedInsert_of_le _ _ hay]
      simp only [List.filter_cons]
    · have hlt : sortVal y < sortVal a := by
        unfold dwLE at hay
        omega
      simp only [List.orderedInsert, if_neg hay, List.filter_cons, ih]
      by_cases haw : sortVal a = w
      · have hyw : sortVal y ≠ w := by omega
        simp [haw, hyw]
      · by_cases hyw : sortVal y = w
        · simp [haw, hyw]
        · simp [haw, hyw]

/-- Stability of the chain sort: for every weight, the subsequence of
handlers at that weight is unchanged by sorting. -/
theorem filter_insertionSort (w : Int) :
    ∀ l : List Handler,
      (List.insertionSort dwLE l).filter (fun h => sortVal h == w) =
        l.filter (fun h => sortVal h == w) := by
  intro l
  induction l with
  | nil => simp
  | cons a rest ih =>
    simp only [List.insertionSort, filter_orderedInsert, ih, List.filter_cons]

/-- A concrete constructor environment for exercising the weighting rule:
constructor 1 yields one handler with an explicit `sort` of 0, constructor 2
yields one handler with an explicit `sort` of 3. -/
def cInterp : Nat → Option Int → DWOut
  | 1, _ => .one ⟨10, some 0⟩
  | 2, _ => .one ⟨20, some 3⟩
  | _, _ => .nil

def cDataFor : String → Option Int := fun _ => some 7

/-- Key a is registered with weight 5, key b with no weight. -/
def cMatching : List (String × Nat × Option Int) :=
  [("a", 1, some 5), ("b", 2, none)]

/-- C5 counterexample: a handler that sets its own explicit weight to 0 does
not take precedence over the key's registered weight 5 — `!thing.sort` is
true for the number 0, so the code overwrites it, reordering the chain
relative to what the claim prescribes. -/
theorem dataware_weight_counterexample :
    buildDW cInterp cDataFor cMatching ≠
      claimBuildDW cInterp cDataFor cMatching ∧
    buildDW cInterp cDataFor cMatching =
      [⟨20, some 3⟩, ⟨10, some 5⟩] ∧
    claimBuildDW cInterp cDataFor cMatching =
      [⟨10, some 0⟩, ⟨20, some 3⟩] := by
  refine ⟨?_, ?_, ?_⟩ <;> decide

/-- C5 amended: every yielded handler keeps its own weight only when that
weight is present and nonzero, and otherwise carries the key's registered
weight; the chain is all yielded handlers across the matching keys, in
yield order, stable-sorted ascending by weight (an absent weight counts as
0), ties keeping their original order. -/
theorem dataware_chain_amended (interp : Nat → Option Int → DWOut)
    (dataFor : String → Option Int)
    (matching : List (String × Nat × Option Int)) :
    buildDW interp dataFor matching =
      List.insertionSort dwLE
        (matching.flatMap (yieldsOf interp dataFor)) ∧
    List.Sorted dwLE (buildDW interp dataFor matching) ∧
    (∀ w : Int,
      (buildDW interp dataFor matching).filter (fun h => sortVal h == w) =
        (matching.flatMap (yieldsOf interp dataFor)).filter
          (fun h => sortVal h == w)) := by
  refine ⟨?_, ?_, ?_⟩
  · unfold buildDW
    rw [collectDW_eq_flatMap]
  · exact List.sorted_insertionSort dwLE _
  · intro w
    unfold buildDW
    rw [collectDW_eq_flatMap, filter_insertionSort]

/-! Middleware matching and the final route chain
(Router.prototype._matchMiddleware and the compose call of _update). -/

/-- A token of a parsed path (path-to-regexp): a literal string segment or
a named parameter. -/
inductive Token where
  | lit (s : String)
  | prm (nm : String)

/-- The `couldMatch` heuristic from src/lib/router.js: compare only the
first tokens, and only when both are strings; an empty route token list
never matches. -/
def couldMatch (tokens mid : List Token) : Bool :=
  match tokens with
  | [] => false
  | .lit s :: _ =>
    match mid with
    | .lit ms :: _ => s == ms || strStartsWith s (ms ++ "/")
    | _ => true
  | .prm _ :: _ => true

/-- One entry of the merged middleware table (`middleware_tokens`): the
parsed tokens, the raw registered path, and the registered functions, in
tree registration order. -/
structure MidEntry where
  tokens : List Token
  route : String
  fns : List Handler

/-- `Router.prototype._matchMiddleware`: keep the entries that could match
the route, preserving table order, and wrap each function as a filterable
middleware (plain string test, or a compiled-regex test when the path
contains a parameter). `regexOf` stands for the external path-to-regexp
compiler. -/
def matchMiddleware (regexOf : String → String → Bool) (tokens : List Token)
    (entries : List MidEntry) : List MW :=
  entries.flatMap (fun e =>
    if couldMatch tokens e.tokens then
      e.fns.map (fun f =>
        { filtered := e.route != "",
          rich := (e.route != "") && e.route.contains ':',
          test :=
            if (e.route != "") && e.route.contains ':' then
              some (.pred (regexOf e.route))
            else some (.str e.route),
          fn := f })
    else [])

/-- Parameter names declared by a route's tokens, in declaration order. -/
def routeParamNames (tokens : List Token) : List String :=
  tokens.filterMap (fun t =>
    match t with
    | .lit _ => none
    | .prm nm => some nm)

/-- The paramware loop of _update: starting from the already accumulated
`_paramware`, append, for each declared parameter name in order, that
name's registered paramware. -/
def buildParamware (initial : List Handler) (names : List String)
    (pwares : String → List Handler) : List Handler :=
  initial ++ names.flatMap pwares

/-- The four sections handed to `compose` by _update, with dataware and
paramware swapped when `paramwareBeforeDataware` is set. -/
def chainSections (pBeforeD : Bool) (md : List MW)
    (dware pware own : List Handler) : List CompSection :=
  if pBeforeD then
    [.arr (md.map .filt), .arr (pware.map .fn), .arr (dware.map .fn),
      .arr (own.map .fn)]
  else
    [.arr (md.map .filt), .arr (dware.map .fn), .arr (pware.map .fn),
      .arr (own.map .fn)]

/-- The flattened middleware list the composed route handler should hold:
matched middleware, then the two middle groups in configured order, then
the route's own handlers. -/
def routeChain (pBeforeD : Bool) (md : List MW)
    (dware pware own : List Handler) : List MW :=
  md ++ (if pBeforeD then pware.map wrapFn ++ dware.map wrapFn
         else dware.map wrapFn ++ pware.map wrapFn) ++ own.map wrapFn

/-- The handlers executed by one single-pass invocation, in order. -/
def invokeFns (mws : List MW) (hasTop : Bool) (path : String) : List Handler :=
  ((invoke mws hasTop path (fun _ => .callNext)).1).map
    (fun j => (mws.getD j mwDefault).fn)

theorem composeItems_filts (ms : List MW) :
    ∀ acc, composeItems acc (ms.map .filt) = .ok (acc ++ ms) := by
  induction ms with
  | nil => intro acc; simp [composeItems]
  | cons m rest ih =>
    intro acc
    simp [composeItems, ih, List.append_assoc]

theorem composeItems_fns (hs : List Handler) :
    ∀ acc, composeItems acc (hs.map .fn) = .ok (acc ++ hs.map wrapFn) := by
  induction hs with
  | nil => intro acc; simp [composeItems]
  | cons h rest ih =>
    intro acc
    simp [composeItems, ih, List.append_assoc]

/-- Build-time flattening: `compose` of the four sections yields exactly the
concatenated chain. -/
theorem compose_chainSections (pBeforeD : Bool) (md : List MW)
    (dware pware own : List Handler) :
    compose (chainSections pBeforeD md dware pware own) =
      .ok (routeChain pBeforeD md dware pware own) := by
  cases pBeforeD <;>
    simp [compose, chainSections, routeChain, composeList, composeItems_filts,
      composeItems_fns, List.append_assoc]

theorem invoke_callNext (mws : List MW) (hasTop : Bool) (path : String) :
    invoke mws hasTop path (fun _ => .callNext) =
      (matchPos path mws, .completed) := by
  have h := passRun_callNext mws hasTop path (mws.length + 1) 0 (by omega)
    (by omega)
  simp only [List.drop_zero] at h
  unfold invoke
  have hc : (((0 : Nat)) : Int) - 1 = -1 := by norm_num
  rw [← hc, h]
  simp

theorem wrapFn_matches (h : Handler) (path : String) :
    (wrapFn h).matches path = true := rfl

theorem filter_wrapped (hs : List Handler) (path : String) :
    (hs.map wrapFn).filter (fun m => m.matches path) = hs.map wrapFn := by
  induction hs with
  | nil => rfl
  | cons h rest ih => simp [List.filter_cons, wrapFn_matches, ih]

theorem map_fn_wrapped (hs : List Handler) :
    (hs.map wrapFn).map (fun m => m.fn) = hs := by
  induction hs with
  | nil => rfl
  | cons h rest ih => simp [wrapFn, ih]

theorem map_fn_comp_wrapFn (hs : List Handler) :
    hs.map ((fun m : MW => m.fn) ∘ wrapFn) = hs := by
  have hfun : ((fun m : MW => m.fn) ∘ wrapFn) = fun h : Handler => h := by
    funext h
    rfl
  rw [hfun]
  exact List.map_id' hs

theorem invokeFns_filter (mws : List MW) (hasTop : Bool) (path : String) :
    invokeFns mws hasTop path =
      (mws.filter (fun m => m.matches path)).map (fun m => m.fn) := by
  unfold invokeFns
  rw [invoke_callNext]
  have hcomp : (fun j => (mws.getD j mwDefault).fn) =
      (fun m : MW => m.fn) ∘ (fun j => mws.getD j mwDefault) := rfl
  rw [hcomp, ← List.map_map, matchPos_getD]

/-- The concatenation/filter computation behind the route-chain execution
order: groups run in order, non-matching filtered entries skipped. -/
theorem routeChain_exec (pBeforeD : Bool) (md : List MW)
    (dware pware own : List Handler) (path : String) (hasTop : Bool) :
    compose (chainSections pBeforeD md dware pware own) =
      .ok (routeChain pBeforeD md dware pware own) ∧
    (invoke (routeChain pBeforeD md dware pware own) hasTop path
      (fun _ => .callNext)).2 = .completed ∧
    invokeFns (routeChain pBeforeD md dware pware own) hasTop path =
      (md.filter (fun m => m.matches path)).map (fun m => m.fn) ++
        (if pBeforeD then pware ++ dware else dware ++ pware) ++ own := by
  refine ⟨compose_chainSections pBeforeD md dware pware own, ?_, ?_⟩
  · rw [invoke_callNext]
  · rw [invokeFns_filter]
    unfold routeChain
    cases pBeforeD <;>
      simp [List.filter_append, filter_wrapped, List.map_append,
        map_fn_wrapped, map_fn_comp_wrapFn, List.append_assoc]

/-- C1: for a route assembled by _update — matched path-filtered middleware
from the middleware table, the dataware chain built and sorted by weight,
the paramware appended in declared parameter order, and the route's own
handlers — the composed handler's middleware list is exactly these groups
concatenated in that order (dataware/paramware swapped when
`paramwareBeforeDataware` is set), and a single-pass execution runs exactly
the path-matching middleware, then the two middle groups, then the own
handlers, in order. -/
theorem route_chain_order (pBeforeD : Bool)
    (regexOf : String → String → Bool) (rTokens : List Token)
    (entries : List MidEntry) (interp : Nat → Option Int → DWOut)
    (dataFor : String → Option Int)
    (matching : List (String × Nat × Option Int))
    (pw0 : List Handler) (pwares : String → List Handler)
    (own : List Handler) (path : String) (hasTop : Bool) :
    compose (chainSections pBeforeD (matchMiddleware regexOf rTokens entries)
        (buildDW interp dataFor matching)
        (buildParamware pw0 (routeParamNames rTokens) pwares) own) =
      .ok (routeChain pBeforeD (matchMiddleware regexOf rTokens entries)
        (buildDW interp dataFor matching)
        (buildParamware pw0 (routeParamNames rTokens) pwares) own) ∧
    (invoke (routeChain pBeforeD (matchMiddleware regexOf rTokens entries)
        (buildDW interp dataFor matching)
        (buildParamware pw0 (routeParamNames rTokens) pwares) own)
      hasTop path (fun _ => .callNext)).2 = .completed ∧
    invokeFns (routeChain pBeforeD (matchMiddleware regexOf rTokens entries)
        (buildDW interp dataFor matching)
        (buildParamware pw0 (routeParamNames rTokens) pwares) own)
      hasTop path =
      ((matchMiddleware regexOf rTokens entries).filter
        (fun m => m.matches path)).map (fun m => m.fn) ++
        (if pBeforeD then
          buildParamware pw0 (routeParamNames rTokens) pwares ++
            buildDW interp dataFor matching
         else
          buildDW interp dataFor matching ++
            buildParamware pw0 (routeParamNames rTokens) pwares) ++ own :=
  routeChain_exec pBeforeD (matchMiddleware regexOf rTokens entries)
    (buildDW interp dataFor matching)
    (buildParamware pw0 (routeParamNames rTokens) pwares) own path hasTop

/-! Dataware applicability through a tree of routers. A route record
threads through the _update of its own router and then each ancestor in
turn (mergeRoutes deep-copies `dataware`, `exclusive` and `defaults`, so
the per-level processing of lines 431-445 composes leaf-to-root). -/

/-- The mutable extension fields of one merged route record, plus the
route's (shared, immutable) options object, with data values as tokens. -/
structure RouteRec where
  options : List (String × Int)
  dataware : List (String × Nat × Option Int)
  exclusive : List String
  defaults : List (String × Int)
  deriving DecidableEq, Inhabited

/-- The dataware-related registrations of one router in the chain from the
route's own router up to the dispatch root. -/
structure LevelCfg where
  dwDefault : List (String × Int)
  datawares : List (String × List Nat)
  dwSort : List (String × Int)
  dwExclusive : List String
  deriving DecidableEq, Inhabited

/-- `has(obj, key)` over an association list. -/
def hasKey {α : Type} : List (String × α) → String → Bool
  | [], _ => false
  | p :: rest, k => p.1 == k || hasKey rest k

/-- `obj[key]` over an association list. -/
def lookupKey {α : Type} : List (String × α) → String → Option α
  | [], _ => none
  | p :: rest, k => if p.1 == k then some p.2 else lookupKey rest k

/-- The defaults loop of _update: this router's defaults fill in only the
keys not already present on the route record. -/
def mergeDefaults (cur cfgd : List (String × Int)) : List (String × Int) :=
  cur ++ cfgd.filter (fun p => !hasKey cur p.1)

/-- Lines 431-445 of src/lib/router.js for one router: merge defaults, push
this router's dataware for every key that is neither excluded nor absent
from both options and the merged defaults, then append this router's
exclusive keys to the route's exclusion set. -/
def levelStep (cfg : LevelCfg) (d : RouteRec) : RouteRec :=
  { d with
    defaults := mergeDefaults d.defaults cfg.dwDefault,
    dataware := d.dataware ++ cfg.datawares.flatMap (fun p =>
      if !d.exclusive.contains p.1 &&
          (hasKey d.options p.1 ||
            hasKey (mergeDefaults d.defaults cfg.dwDefault) p.1) then
        p.2.map (fun c => (p.1, c, lookupKey cfg.dwSort p.1))
      else []),
    exclusive := d.exclusive ++ cfg.dwExclusive }

/-- Processing of a route record by its router and then every ancestor. -/
def applyLevels (d : RouteRec) (levels : List LevelCfg) : RouteRec :=
  levels.foldl (fun s cfg => levelStep cfg s) d

/-- The route record as it stands when level `n` starts processing. -/
def stateAt (d : RouteRec) (levels : List LevelCfg) (n : Nat) : RouteRec :=
  applyLevels d (levels.take n)

/-- The claim's applicability condition for key `k` at level `n`: `k` is not
in the route's exclusion set as accumulated below level `n`, and the route's
options contain `k` or a default for `k` is visible at level `n`. -/
def dwApplies (d : RouteRec) (levels : List LevelCfg) (n : Nat)
    (k : String) : Bool :=
  !(stateAt d levels n).exclusive.contains k &&
    (hasKey d.options k || hasKey (stateAt d levels (n + 1)).defaults k)

/-- The dataware chain described by the claim: per level, per registered
key, the key's constructors exactly when the applicability condition holds
at that level. -/
def chainFormula (d : RouteRec) (levels : List LevelCfg) :
    List (String × Nat × Option Int) :=
  d.dataware ++ (List.range levels.length).flatMap (fun n =>
    (levels.getD n default).datawares.flatMap (fun p =>
      if dwApplies d levels n p.1 then
        p.2.map (fun c => (p.1, c, lookupKey (levels.getD n default).dwSort p.1))
      else []))

theorem applyLevels_exclusive (levels : List LevelCfg) :
    ∀ d : RouteRec, (applyLevels d levels).exclusive =
      d.exclusive ++ levels.flatMap (fun c => c.dwExclusive) := by
  induction levels with
  | nil => intro d; simp [applyLevels]
  | cons cfg ls ih =>
    intro d
    have hstep : applyLevels d (cfg :: ls) =
        applyLevels (levelStep cfg d) ls := rfl
    rw [hstep, ih]
    simp [levelStep, List.append_assoc]

theorem flatMap_map_succ {β : Type} (f : Nat → List β) (l : List Nat) :
    (l.map Nat.succ).flatMap f = l.flatMap (fun n => f (n + 1)) := by
  induction l with
  | nil => rfl
  | cons a l ih => simp [List.flatMap_cons, ih, Nat.succ_eq_add_one]

theorem applyLevels_dataware (levels : List LevelCfg) :
    ∀ d : RouteRec, (applyLevels d levels).dataware = chainFormula d levels := by
  induction levels with
  | nil =>
    intro d
    simp [applyLevels, chainFormula]
  | cons cfg ls ih =>
    intro d
    have hstep : applyLevels d (cfg :: ls) =
        applyLevels (levelStep cfg d) ls := rfl
    rw [hstep, ih]
    unfold chainFormula
    rw [List.length_cons, List.range_succ_eq_map, List.flatMap_cons,
      flatMap_map_succ]
    have hshift :
        (fun n => (((cfg :: ls).getD (n + 1) default).datawares).flatMap
          (fun p =>
            if dwApplies d (cfg :: ls) (n + 1) p.1 then
              p.2.map (fun c =>
                (p.1, c, lookupKey ((cfg :: ls).getD (n + 1) default).dwSort p.1))
            else [])) =
        (fun n => ((ls.getD n default).datawares).flatMap
          (fun p =>
            if dwApplies (levelStep cfg d) ls n p.1 then
              p.2.map (fun c =>
                (p.1, c, lookupKey (ls.getD n default).dwSort p.1))
            else [])) := by
      funext n
      rfl
    rw [hshift]
    have hzero :
        ((cfg :: ls).getD 0 default).datawares.flatMap (fun p =>
          if dwApplies d (cfg :: ls) 0 p.1 then
            p.2.map (fun c =>
              (p.1, c, lookupKey ((cfg :: ls).getD 0 default).dwSort p.1))
          else []) =
        cfg.datawares.flatMap (fun p =>
          if !d.exclusive.contains p.1 &&
              (hasKey d.options p.1 ||
                hasKey (mergeDefaults d.defaults cfg.dwDefault) p.1) then
            p.2.map (fun c => (p.1, c, lookupKey cfg.dwSort p.1))
          else []) := rfl
    rw [hzero]
    have hdw : (levelStep cfg d).dataware =
        d.dataware ++ cfg.datawares.flatMap (fun p =>
          if !d.exclusive.contains p.1 &&
              (hasKey d.options p.1 ||
                hasKey (mergeDefaults d.defaults cfg.dwDefault) p.1) then
            p.2.map (fun c => (p.1, c, lookupKey cfg.dwSort p.1))
          else []) := rfl
    rw [hdw, List.append_assoc]

theorem getD_mem_take {α : Type} [Inhabited α] :
    ∀ (l : List α) (m n : Nat), m < n → m < l.length →
      l.getD m default ∈ l.take n := by
  intro l
  induction l with
  | nil => intro m n _ hml; simp at hml
  | cons a t ih =>
    intro m n hmn hml
    cases n with
    | zero => omega
    | succ n =>
      cases m with
      | zero => simp [List.take_succ_cons]
      | succ m =>
        simp only [List.getD_cons_succ, List.take_succ_cons]
        exact List.mem_cons_of_mem _ (ih m n (by omega) (by simpa using hml))

theorem stateAt_exclusive_contains (d : RouteRec) (levels : List LevelCfg)
    {m n : Nat} {k : String} (hmn : m < n)
    (hk : ((levels.getD m default).dwExclusive).contains k = true) :
    ((stateAt d levels n).exclusive).contains k = true := by
  unfold stateAt
  rw [applyLevels_exclusive]
  by_cases hml : m < levels.length
  · have hmem : k ∈ (levels.getD m default).dwExclusive := by
      simpa using hk
    have hflat : k ∈ (levels.take n).flatMap (fun c => c.dwExclusive) :=
      List.mem_flatMap.mpr ⟨levels.getD m default,
        getD_mem_take levels m n hmn hml, hmem⟩
    simpa using Or.inr hflat
  · rw [List.getD_eq_default] at hk
    · rw [show (default : LevelCfg).dwExclusive = [] from rfl] at hk
      simp at hk
    · omega

/-- C4: for a route threaded through its router and its ancestors, the
dataware for key `k` registered at a level is in the route's final chain
exactly when `k` is not in the route's exclusion set as accumulated below
that level and either the route's options contain `k` or a default for `k`
is visible there; in particular, once `k` is marked exclusive at some lower
(closer to the route) level, the applicability condition at every later
(ancestor) level is false, so no ancestor dataware for `k` ever joins the
chain. -/
theorem dataware_applicability (d : RouteRec) (levels : List LevelCfg) :
    (applyLevels d levels).dataware = chainFormula d levels ∧
    (∀ m n k, m < n →
      ((levels.getD m default).dwExclusive).contains k = true →
      dwApplies d levels n k = false) := by
  refine ⟨applyLevels_dataware levels d, ?_⟩
  intro m n k hmn hk
  have hcont := stateAt_exclusive_contains d levels hmn hk
  unfold dwApplies
  rw [hcont]
  rfl

/-- A route whose options carry key `k`, under a router that registers
dataware for `k` and marks it exclusive, nested in a parent that also
registers dataware for `k`. -/
def w4d : RouteRec := ⟨[("k", 1)], [], [], []⟩

def w4levels : List LevelCfg :=
  [⟨[], [("k", [1])], [], ["k"]⟩, ⟨[], [("k", [2])], [], []⟩]

theorem dataware_applicability_witness :
    (applyLevels w4d w4levels).dataware = chainFormula w4d w4levels ∧
    dwApplies w4d w4levels 1 "k" = false :=
  ⟨(dataware_applicability w4d w4levels).1,
    (dataware_applicability w4d w4levels).2 0 1 "k" (by decide) (by decide)⟩

/-! Host resolution during rebuild (lines 379-400 of _update). -/

/-- The loop over a route's method entries looking for explicit host
overrides: `route_host` starts null, and an explicit host found while
`route_host` is already set raises the conflict error — whatever its
value. An entry is `none` when its options carry no (truthy) host. -/
def scanHosts : Option String → List (Option String) →
    Except String (Option String)
  | cur, [] => .ok cur
  | cur, none :: rest => scanHosts cur rest
  | cur, some h :: rest =>
    match cur with
    | some _ => .error "Route has conflicting hosts"
    | none => scanHosts (some h) rest

/-- Host resolution for one route: the scan above, then fall back to the
inherited ancestor host when no entry declared one. -/
def resolveHost (ancestor : Option String) (entries : List (Option String)) :
    Except String (Option String) :=
  match scanHosts none entries with
  | .error e => .error e
  | .ok none => .ok ancestor
  | .ok (some h) => .ok (some h)

/-- The explicit hosts declared across the method entries, in order. -/
def explicitHosts (entries : List (Option String)) : List String :=
  entries.filterMap id

/-- "Conflicting explicit hosts" as the C6 claim reads it: two method
entries declare distinct explicit hosts. -/
def hostConflictClaim (entries : List (Option String)) : Bool :=
  (explicitHosts entries).any (fun a =>
    (explicitHosts entries).any (fun b => a != b))

/-- The effective host the claim describes: first explicit host among the
method entries, else the inherited ancestor host. -/
def effectiveHost (ancestor : Option String)
    (entries : List (Option String)) : Option String :=
  match (explicitHosts entries).head? with
  | some h => some h
  | none => ancestor

/-- C6 counterexample: two method entries declaring the *same* explicit
host — not conflicting hosts in the claim's sense — still raise the
conflict error, because the code errors on any second explicit host. -/
theorem host_conflict_counterexample :
    resolveHost none [some "a.example", some "a.example"] =
      .error "Route has conflicting hosts" ∧
    hostConflictClaim [some "a.example", some "a.example"] = false := by
  constructor
  · rfl
  · decide

theorem scanHosts_some (c : String) :
    ∀ entries : List (Option String),
      scanHosts (some c) entries =
        match explicitHosts entries with
        | [] => .ok (some c)
        | _ :: _ => .error "Route has conflicting hosts" := by
  intro entries
  induction entries with
  | nil => rfl
  | cons e rest ih =>
    rcases e with _ | h
    · simpa [scanHosts, explicitHosts] using ih
    · simp [scanHosts, explicitHosts]

theorem scanHosts_none :
    ∀ entries : List (Option String),
      scanHosts none entries =
        match explicitHosts entries with
        | [] => .ok none
        | [h] => .ok (some h)
        | _ :: _ :: _ => .error "Route has conflicting hosts" := by
  intro entries
  induction entries with
  | nil => rfl
  | cons e rest ih =>
    rcases e with _ | h
    · simpa [scanHosts, explicitHosts] using ih
    · have hcons : explicitHosts (some h :: rest) = h :: explicitHosts rest :=
        rfl
      have hlhs : scanHosts none (some h :: rest) =
          scanHosts (some h) rest := rfl
      rw [hlhs, scanHosts_some, hcons]
      rcases hrest : explicitHosts rest with _ | ⟨h2, t⟩ <;> rfl

/-- C6 amended: the effective host is the first explicit host among the
route's method entries, else the inherited ancestor host; the rebuild
raises a configuration error on a route exactly when at least two of its
method entries declare explicit hosts, whether or not the values differ. -/
theorem host_resolution_amended (ancestor : Option String)
    (entries : List (Option String)) :
    (2 ≤ (explicitHosts entries).length ↔
      resolveHost ancestor entries = .error "Route has conflicting hosts") ∧
    ((explicitHosts entries).length ≤ 1 →
      resolveHost ancestor entries = .ok (effectiveHost ancestor entries)) := by
  unfold resolveHost
  rw [scanHosts_none]
  rcases hex : explicitHosts entries with _ | ⟨h, _ | ⟨h2, t⟩⟩
  · constructor
    · constructor
      · intro hlen
        simp [hex] at hlen
      · intro herr
        simp at herr
    · intro _
      simp [effectiveHost, hex]
  · constructor
    · constructor
      · intro hlen
        simp [hex] at hlen
      · intro herr
        simp at herr
    · intro _
      simp [effectiveHost, hex]
  · constructor
    · constructor
      · intro _
        rfl
      · intro _
        simp [hex]
    · intro hlen
      simp [hex] at hlen

theorem host_resolution_amended_witness :
    resolveHost (some "anc.example") [none, some "h.example", none] =
      .ok (effectiveHost (some "anc.example")
        [none, some "h.example", none]) :=
  (host_resolution_amended (some "anc.example")
    [none, some "h.example", none]).2 (by decide)

/-! The dispatch frontend (the `dispatch` closure of
Router.prototype.middleware, with handle405/handleOptions). -/

/-- The verb list of the external `methods` package (node's http.METHODS,
lowercased); used only when a route was registered via `all`. -/
def METHODS : List String :=
  ["acl", "bind", "checkout", "connect", "copy", "delete", "get", "head",
    "link", "lock", "m-search", "merge", "mkactivity", "mkcalendar",
    "mkcol", "move", "notify", "options", "patch", "post", "propfind",
    "proppatch", "purge", "put", "rebind", "report", "search", "source",
    "subscribe", "trace", "unbind", "unlink", "unlock", "unsubscribe"]

/-- The dispatch-relevant router options (booleans; a supplied custom
handler function behaves as `true` for the branch decision). -/
structure DispatchOpts where
  handleOptions : Bool
  handle405 : Bool
  deriving DecidableEq, Repr

/-- What dispatch does once a route matched: run the route's composed
handler, run the OPTIONS handler, delegate to the outer next, or run the
405 handler with an Allow header. -/
inductive DispatchOut where
  | route (h : Handler)
  | opts
  | delegate
  | notAllowed (allow : String)
  deriving DecidableEq, Repr

/-- `store[method] || (method !== 'options' && store.all)`. -/
def storeData (store : List (String × Handler)) (m : String) :
    Option Handler :=
  match lookupKey store m with
  | some h => some h
  | none => if m != "options" then lookupKey store "all" else none

/-- `(store.all ? METHODS : Object.keys(store)).join(', ').toUpperCase()`,
the Allow value of handle405 and handleOptions. -/
def allowHeader (store : List (String × Handler)) : String :=
  strUpper (String.intercalate ", "
    (if hasKey store "all" then METHODS else store.map (fun p => p.1)))

/-- The branch structure of dispatch after a successful path match
(lines 243-283 of src/lib/router.js). -/
def dispatch (o : DispatchOpts) (store : List (String × Handler))
    (rawMethod : String) : DispatchOut :=
  match storeData store (strLower rawMethod) with
  | some h => .route h
  | none =>
    if strLower rawMethod == "options" && o.handleOptions then .opts
    else if !o.handle405 then .delegate
    else .notAllowed (allowHeader store)

/-- C7: on a match without a handler for the requested method, dispatch
runs the OPTIONS handler (method OPTIONS, handling enabled), else delegates
when 405 handling is disabled, else runs the 405 handler whose Allow header
lists the route's registered methods; no route handler runs. A route with
only GET and POST yields the list `GET, POST`. -/
theorem dispatch_method_missing (o : DispatchOpts)
    (store : List (String × Handler)) (rawMethod : String)
    (hnone : storeData store (strLower rawMethod) = none) :
    (strLower rawMethod = "options" → o.handleOptions = true →
      dispatch o store rawMethod = .opts) ∧
    (¬(strLower rawMethod = "options" ∧ o.handleOptions = true) →
      o.handle405 = false → dispatch o store rawMethod = .delegate) ∧
    (¬(strLower rawMethod = "options" ∧ o.handleOptions = true) →
      o.handle405 = true →
      dispatch o store rawMethod = .notAllowed (allowHeader store)) ∧
    (∀ h, dispatch o store rawMethod ≠ .route h) ∧
    (∀ g p : Handler, allowHeader [("get", g), ("post", p)] = "GET, POST") ∧
    (∀ (g p : Handler) (hOpt : Bool),
      dispatch ⟨hOpt, true⟩ [("get", g), ("post", p)] "DELETE" =
        .notAllowed "GET, POST") := by
  unfold dispatch
  rw [hnone]
  refine ⟨?_, ?_, ?_, ?_, ?_, ?_⟩
  · intro hm ho
    simp [hm, ho]
  · intro hno h4
    rcases hb : (strLower rawMethod == "options" && o.handleOptions)
        with _ | _
    · simp [hb, h4]
    · exfalso
      apply hno
      simpa using hb
  · intro hno h4
    rcases hb : (strLower rawMethod == "options" && o.handleOptions)
        with _ | _
    · simp [hb, h4]
    · exfalso
      apply hno
      simpa using hb
  · intro h
    rcases hb : (strLower rawMethod == "options" && o.handleOptions)
        with _ | _
    · rcases h4 : o.handle405 with _ | _ <;> simp [hb, h4]
    · simp [hb]
  · intro g p
    rfl
  · intro g p hOpt
    rfl

theorem dispatch_method_missing_witness :
    dispatch ⟨true, true⟩ [("get", ⟨1, none⟩), ("post", ⟨2, none⟩)] "PUT" =
      .notAllowed (allowHeader [("get", ⟨1, none⟩), ("post", ⟨2, none⟩)]) :=
  (dispatch_method_missing ⟨true, true⟩
    [("get", ⟨1, none⟩), ("post", ⟨2, none⟩)] "PUT" (by decide)).2.2.1
    (by decide) rfl

/-- C10: for a route registered only through the `all` wildcard, the
`store.all` fallback serves every method except OPTIONS; an OPTIONS request
never reaches the all-method handler and instead takes the OPTIONS/405
handling path. -/
theorem all_route_skips_options (h : Handler) (o : DispatchOpts) :
    storeData [("all", h)] "options" = none ∧
    (∀ m : String, m != "options" → storeData [("all", h)] m = some h) ∧
    (∀ h2, dispatch o [("all", h)] "OPTIONS" ≠ .route h2) ∧
    (dispatch o [("all", h)] "OPTIONS" = .opts ∨
      dispatch o [("all", h)] "OPTIONS" = .delegate ∨
      dispatch o [("all", h)] "OPTIONS" =
        .notAllowed (allowHeader [("all", h)])) := by
  have hlow : strLower "OPTIONS" = "options" := by decide
  have hsd : storeData [("all", h)] "options" = none := rfl
  refine ⟨rfl, ?_, ?_, ?_⟩
  · intro m hm
    unfold storeData lookupKey
    rcases hall : ("all" == m : Bool) with _ | _
    · simp [hall, hm, lookupKey]
    · simp [hall]
  · intro h2
    unfold dispatch
    rw [hlow, hsd]
    rcases o with ⟨ho, h4⟩
    cases ho <;> cases h4 <;> simp
  · unfold dispatch
    rw [hlow, hsd]
    rcases o with ⟨ho, h4⟩
    cases ho <;> cases h4 <;> simp

theorem all_route_skips_options_witness :
    storeData [("all", ⟨9, none⟩)] "get" = some ⟨9, none⟩ :=
  (all_route_skips_options ⟨9, none⟩ ⟨true, true⟩).2.1 "get" (by decide)

/-! The Mount middleware (src/unnamed mount module) and the path rewrite of
Router.prototype.mount. -/

/-- A request context as Mount sees it: the current path and the matched
route parameters. -/
structure Ctx where
  path : String
  params : List (String × String)
  deriving DecidableEq, Repr

/-- Outcome of the downstream chain: a resolved value or a thrown error. -/
inductive MountOut where
  | ok (v : Nat)
  | err (e : Nat)
  deriving DecidableEq, Repr

/-- `Mount(param)`: save `ctx.path`, replace it by `'/' + ctx.params[param]`,
call next, and restore the saved path afterwards — the `finally` runs both
when next resolves and when it throws (both covered by `MountOut`). -/
def MountMW (param : String) (next : Ctx → Ctx × MountOut) (ctx : Ctx) :
    Ctx × MountOut :=
  ({ (next { ctx with
      path := "/" ++ (lookupKey ctx.params param).getD "undefined" }).1 with
    path := ctx.path },
   (next { ctx with
      path := "/" ++ (lookupKey ctx.params param).getD "undefined" }).2)

/-- The path rewrite of Router.prototype.mount: ensure the registered path
ends in a catch-all segment. -/
def mountPath (p : String) : String :=
  if strEndsWith p "/" then p ++ "*"
  else if !(strEndsWith p "/*") then p ++ "/*"
  else p

/-- C8: `mount(pfx, handler)` registers `pfx/*`; on a request under the
prefix whose catch-all parameter holds the suffix, the inner handler runs
with path `'/' + suffix`, and afterwards — next having resolved or thrown —
the externally observed path is the original one. -/
theorem mount_path_rewrite (pfx suffix : String) (ctx : Ctx)
    (next : Ctx → Ctx × MountOut)
    (hpath : ctx.path = pfx ++ "/" ++ suffix)
    (hparam : lookupKey ctx.params "*" = some suffix)
    (hnoslash : strEndsWith pfx "/" = false)
    (hnostar : strEndsWith pfx "/*" = false) :
    mountPath pfx = pfx ++ "/*" ∧
    MountMW "*" next ctx =
      ({ (next { ctx with path := "/" ++ suffix }).1 with
          path := pfx ++ "/" ++ suffix },
        (next { ctx with path := "/" ++ suffix }).2) ∧
    (MountMW "*" next ctx).1.path = ctx.path := by
  refine ⟨?_, ?_, ?_⟩
  · unfold mountPath
    rw [hnoslash, hnostar]
    rfl
  · unfold MountMW
    rw [hparam, hpath]
    rfl
  · unfold MountMW
    rw [hparam]

theorem mount_path_rewrite_witness :
    mountPath "/api" = "/api" ++ "/*" ∧
    MountMW "*" (fun c => (c, .err 3))
        ⟨"/api/widgets/1", [("*", "widgets/1")]⟩ =
      ({ ((fun c : Ctx => (c, MountOut.err 3))
            { (⟨"/api/widgets/1", [("*", "widgets/1")]⟩ : Ctx) with
              path := "/" ++ "widgets/1" }).1 with
          path := "/api" ++ "/" ++ "widgets/1" },
        ((fun c : Ctx => (c, MountOut.err 3))
            { (⟨"/api/widgets/1", [("*", "widgets/1")]⟩ : Ctx) with
              path := "/" ++ "widgets/1" }).2) ∧
    (MountMW "*" (fun c => (c, .err 3))
        ⟨"/api/widgets/1", [("*", "widgets/1")]⟩).1.path =
      (⟨"/api/widgets/1", [("*", "widgets/1")]⟩ : Ctx).path :=
  mount_path_rewrite "/api" "widgets/1"
    ⟨"/api/widgets/1", [("*", "widgets/1")]⟩ (fun c => (c, .err 3))
    (by decide) (by decide) (by decide) (by decide)

/-! Pooled per-invocation state of the composed handler
(the `composed` wrapper of src/lib/composer.js over a reusify pool). -/

/-- The fields of one pooled Composer instance: the cursor `i`, the context
and the top-level next, each nullable. -/
structure CInst where
  cursorF : Option Int
  ctxF : Option Nat
  nextF : Option Nat
  deriving DecidableEq, Repr

/-- A fresh instance as the Composer constructor initializes it. -/
def freshInst : CInst := ⟨none, none, none⟩

/-- reusify get: reuse a pooled instance, or construct a fresh one. -/
def poolGet : List CInst → CInst × List CInst
  | [] => (freshInst, [])
  | inst :: rest => (inst, rest)

/-- reusify release: the instance goes back into the pool. -/
def poolRelease (inst : CInst) (pool : List CInst) : List CInst :=
  inst :: pool

/-- One invocation of `composed(context, next)`: take an instance, set
cursor to -1 and store the request's context and next, run (leaving some
final cursor, resolving or rejecting), then — in the `finally`, on both
paths — null out context and next and release the instance. Returns the
instance state `run` saw, the pool afterwards, and the failure flag. -/
def composedInvoke (pool : List CInst) (c n : Nat) (runFails : Bool)
    (finalCursor : Int) : CInst × List CInst × Bool :=
  if runFails then
    ({ (poolGet pool).1 with
        cursorF := some (-1), ctxF := some c, nextF := some n },
      poolRelease
        { { { (poolGet pool).1 with
              cursorF := some (-1), ctxF := some c, nextF := some n } with
            cursorF := some finalCursor } with
          ctxF := none, nextF := none } (poolGet pool).2,
      true)
  else
    ({ (poolGet pool).1 with
        cursorF := some (-1), ctxF := some c, nextF := some n },
      poolRelease
        { { { (poolGet pool).1 with
              cursorF := some (-1), ctxF := some c, nextF := some n } with
            cursorF := some finalCursor } with
          ctxF := none, nextF := none } (poolGet pool).2,
      false)

/-- C9: whether the run resolves or rejects, the instance is released back
to the pool with its context and next cleared; and the state `run` observes
is fully re-initialized — cursor -1 and the new request's context and next
— independent of whatever a previous request left behind. -/
theorem pool_state_cleared (pool : List CInst) (c n : Nat) (runFails : Bool)
    (finalCursor : Int) :
    (composedInvoke pool c n runFails finalCursor).2.1 =
      ⟨some finalCursor, none, none⟩ :: (poolGet pool).2 ∧
    (composedInvoke pool c n runFails finalCursor).1 =
      ⟨some (-1), some c, some n⟩ ∧
    (composedInvoke pool c n runFails finalCursor).2.2 = runFails := by
  unfold composedInvoke poolRelease
  cases runFails <;> exact ⟨rfl, rfl, rfl⟩

end ApiRouter
